import Mathlib

/-!
Verification of the `ledge` text-chunking engine (modules
`src/llm/chunk/sw.rs`, `src/llm/chunk/seq.rs`, `src/llm/chunk/ssw.rs`,
and `combine_str` from `src/llm/chunk.rs`).

Strings are modelled at the byte level as `List Nat` (each entry one UTF-8
byte), because every offset computation in the source is a byte offset into
a Rust `&str`.  Rust string slicing `&s[a..b]` panics unless both `a` and
`b` lie on UTF-8 code-point boundaries; this is modelled by `sliceChecked`,
which returns `.error .boundary` exactly when Rust would panic.
`std::str::from_utf8` failures (the `ChunkerError::Utf8` arm) are modelled
by a full UTF-8 validator.  Unbounded `loop`s are modelled with a structural
fuel parameter; fuel exhaustion returns `.error .diverge` and corresponds to
a non-terminating Rust execution.
-/

/-- Error outcomes of a chunker run.  `config` models `ChunkerError::Config`,
`utf8` models `ChunkerError::Utf8` (a failed `std::str::from_utf8` inside
`combine_str`), `boundary` models a Rust panic from slicing a `&str` at a
non-code-point byte offset (the spec's `BoundaryViolation`), and `diverge`
models a non-terminating loop (fuel exhaustion in this embedding). -/
inductive ChunkErr where
  | config
  | utf8
  | boundary
  | diverge
deriving DecidableEq, Repr

/-- UTF-8 continuation byte: `0x80 ≤ b < 0xC0`. -/
def isContByte (b : Nat) : Bool :=
  decide (128 ≤ b) && decide (b < 192)

/-- Rust `str::is_char_boundary` for a byte offset `p` of `text`:
true at 0 and at the length, and otherwise when the byte at `p` is not a
continuation byte. -/
def isCharBoundary (text : List Nat) (p : Nat) : Bool :=
  decide (p = 0) || decide (p = text.length) ||
    (decide (p < text.length) && !(isContByte (text.getD p 0)))

/-- Validity of `&s[a..b]` for a Rust `&str`: `a ≤ b`, both offsets in
bounds and on code-point boundaries. -/
def sliceOk (text : List Nat) (a b : Nat) : Bool :=
  decide (a ≤ b) && isCharBoundary text a && isCharBoundary text b

/-- Rust string slicing `&text[a..b]`: the byte range on success,
`.error .boundary` (a panic in the source) otherwise. -/
def sliceChecked (text : List Nat) (a b : Nat) : Except ChunkErr (List Nat) :=
  if sliceOk text a b then .ok ((List.take b text).drop a) else .error .boundary

/-- Full UTF-8 validation of a byte sequence, as performed by
`std::str::from_utf8` (rejecting overlong forms, surrogates and
out-of-range sequences). -/
def isValidUtf8 : List Nat → Bool
  | [] => true
  | b :: rest =>
    if b ≤ 0x7F then isValidUtf8 rest
    else if 0xC2 ≤ b && b ≤ 0xDF then
      match rest with
      | c1 :: rest2 => isContByte c1 && isValidUtf8 rest2
      | [] => false
    else if b = 0xE0 then
      match rest with
      | c1 :: c2 :: rest2 =>
        decide (0xA0 ≤ c1) && decide (c1 ≤ 0xBF) && isContByte c2 && isValidUtf8 rest2
      | _ => false
    else if 0xE1 ≤ b && b ≤ 0xEC then
      match rest with
      | c1 :: c2 :: rest2 => isContByte c1 && isContByte c2 && isValidUtf8 rest2
      | _ => false
    else if b = 0xED then
      match rest with
      | c1 :: c2 :: rest2 =>
        decide (0x80 ≤ c1) && decide (c1 ≤ 0x9F) && isContByte c2 && isValidUtf8 rest2
      | _ => false
    else if 0xEE ≤ b && b ≤ 0xEF then
      match rest with
      | c1 :: c2 :: rest2 => isContByte c1 && isContByte c2 && isValidUtf8 rest2
      | _ => false
    else if b = 0xF0 then
      match rest with
      | c1 :: c2 :: c3 :: rest2 =>
        decide (0x90 ≤ c1) && decide (c1 ≤ 0xBF) && isContByte c2 && isContByte c3 &&
          isValidUtf8 rest2
      | _ => false
    else if 0xF1 ≤ b && b ≤ 0xF3 then
      match rest with
      | c1 :: c2 :: c3 :: rest2 =>
        isContByte c1 && isContByte c2 && isContByte c3 && isValidUtf8 rest2
      | _ => false
    else if b = 0xF4 then
      match rest with
      | c1 :: c2 :: c3 :: rest2 =>
        decide (0x80 ≤ c1) && decide (c1 ≤ 0x8F) && isContByte c2 && isContByte c3 &&
          isValidUtf8 rest2
      | _ => false
    else false

/-- ASCII whitespace bytes.  Models the whitespace classification used by
Rust `str::trim` on the ASCII range (the source's inputs; the rare
multi-byte Unicode whitespace characters are not modelled). -/
def isAsciiWs (b : Nat) : Bool :=
  decide (b = 32) || decide (b = 9) || decide (b = 10) || decide (b = 11) ||
    decide (b = 12) || decide (b = 13)

/-- Rust `str::trim` restricted to ASCII whitespace: drop whitespace bytes
from both ends. -/
def trimAscii (l : List Nat) : List Nat :=
  ((l.dropWhile isAsciiWs).reverse.dropWhile isAsciiWs).reverse

/-- Bytes of an ASCII string literal (each char is one byte). -/
def asciiBytes (s : String) : List Nat :=
  s.data.map Char.toNat

/-- Predicate: every byte of the text is ASCII. -/
def allAscii (l : List Nat) : Prop :=
  ∀ b ∈ l, b < 128

instance (l : List Nat) : Decidable (allAscii l) := by
  unfold allAscii; infer_instance

/-!
## SlidingWindow (`src/llm/chunk/sw.rs`)
-/

/-- Configuration of the fixed-size chunker: `size` and `overlap`, both byte
counts. -/
structure SlidingWindow where
  size : Nat
  overlap : Nat
deriving DecidableEq, Repr

/-- `SlidingWindow::new`: rejects `overlap >= size` with a `Config` error. -/
def SlidingWindow.new (size overlap : Nat) : Except ChunkErr SlidingWindow :=
  if overlap ≥ size then .error .config else .ok ⟨size, overlap⟩

/-- Loop body of `SlidingWindow::chunk` (sw.rs:50-66).  State: `start` and
`en` (Rust `end`); each iteration emits `input[chunk_start..chunk_end]`
with `chunk_start = if start == 0 then 0 else start - overlap` and
`chunk_end = en + overlap`, truncating and stopping at the input length.
`fuel` bounds the iteration count; the real loop runs forever when
`size = 0`. -/
def swChunkLoop (size ov inputLen : Nat) (text : List Nat) :
    Nat → Nat → Nat → Except ChunkErr (List (List Nat))
  | 0, _, _ => .error .diverge
  | fuel + 1, start, en =>
    let cs := if start = 0 then 0 else start - ov
    let ce := en + ov
    if inputLen < ce then
      match sliceChecked text cs inputLen with
      | .error e => .error e
      | .ok c => .ok [c]
    else
      match sliceChecked text cs ce with
      | .error e => .error e
      | .ok c =>
        match swChunkLoop size ov inputLen text fuel en (en + size) with
        | .error e => .error e
        | .ok rest => .ok (c :: rest)

/-- `SlidingWindow::chunk` (sw.rs:31-75): trim, return no chunk on empty
input, a single chunk when `len ≤ size + overlap`, and otherwise run the
sliding-window loop from `start = 0`, `end = size`. -/
def swChunk (size ov : Nat) (input : List Nat) : Except ChunkErr (List (List Nat)) :=
  let t := trimAscii input
  if t = [] then .ok []
  else if t.length ≤ size + ov then .ok [t]
  else swChunkLoop size ov t.length t (t.length + 2) 0 size

deriving instance DecidableEq for Except

/-!
## Recursive chunker (`src/llm/chunk/seq.rs`)

Phase 1 (`Recursive::chunk_recursive`) works on `&str` slices of the input
and grows a shared buffer by raw-pointer widening; it is embedded with
explicit `(start, length)` byte ranges into the input, so that the pointer
arithmetic of the source (which widens from the buffer's start by the sum
of the lengths, whether or not buffer and piece are adjacent) is modelled
exactly.
-/

/-- Byte range into the input text: `(start, length)`. -/
abbrev StrRange : Type := Nat × Nat

/-- Content of a byte range of `text`. -/
def sliceOfR (text : List Nat) (r : StrRange) : List Nat :=
  (List.take (r.1 + r.2) text).drop r.1

/-- Core of `str::split_inclusive` on bytes: scan the text, cutting after
each (leftmost, non-overlapping) occurrence of `delim`; the delimiter stays
attached to the preceding piece, and a trailing piece without the delimiter
is kept (but an empty trailing piece is not emitted). -/
def splitIncAux (delim : List Nat) : List Nat → List Nat → List (List Nat)
  | [], cur => if cur = [] then [] else [cur]
  | b :: rest, cur =>
    let cur2 := cur ++ [b]
    if delim ≠ [] ∧ delim.isSuffixOf cur2 then cur2 :: splitIncAux delim rest []
    else splitIncAux delim rest cur2

/-- Rust `str::split_inclusive` on bytes.  The empty pattern splits at every
position (each byte becomes its own piece), matching the empty-delimiter
entry of the default delimiter list, which reduces a text to single
characters. -/
def splitIncBytes (delim text : List Nat) : List (List Nat) :=
  if delim = [] then text.map (fun b => [b]) else splitIncAux delim text []

/-- Attach running start offsets to a list of consecutive pieces. -/
def offsetPieces (s : Nat) : List (List Nat) → List StrRange
  | [] => []
  | p :: ps => (s, p.length) :: offsetPieces (s + p.length) ps

/-- Pieces of `split_inclusive(delims[idx])` applied to the sub-slice `r` of
`text`, as byte ranges of `text`. -/
def splitIncOffsets (delim : List Nat) (text : List Nat) (r : StrRange) : List StrRange :=
  offsetPieces r.1 (splitIncBytes delim (sliceOfR text r))

/-- Buffer extension of `chunk_recursive` (seq.rs:106-124): keep the
buffer's start when it is non-empty (otherwise the piece's start), widen the
length by the piece's length, and re-check the widened byte range with
`std::str::from_utf8` exactly as the source does. -/
def extendBuf (text : List Nat) (buffer p : StrRange) : Except ChunkErr StrRange :=
  let s := if buffer.2 = 0 then p.1 else buffer.1
  if isValidUtf8 ((List.take (s + buffer.2 + p.2) text).drop s) then .ok (s, buffer.2 + p.2)
  else .error .utf8

/-- Call states of the phase-1 recursion: `level` enters
`chunk_recursive(input, idx, buffer)`; `piecesLoop` is the `for chunk in
split` loop with remaining pieces, current buffer and the splits pushed so
far. -/
inductive RecCall where
  | level (idx : Nat) (input : StrRange) (buffer : StrRange)
  | piecesLoop (idx : Nat) (pieces : List StrRange) (buffer : StrRange) (acc : List StrRange)

/-- Fuel-indexed interpreter of `Recursive::chunk_recursive`
(seq.rs:90-153).  Returns the splits pushed into `chunks` during this call
together with the `Option<&str>` result (the leftover buffer). -/
def recRun (size : Nat) (delims : List (List Nat)) (text : List Nat) :
    Nat → RecCall → Except ChunkErr (List StrRange × Option StrRange)
  | 0, _ => .error .diverge
  | fuel + 1, .level idx input buffer =>
    if delims.length ≤ idx then .ok ([], none)
    else recRun size delims text fuel
      (.piecesLoop idx (splitIncOffsets (delims.getD idx []) text input) buffer [])
  | _ + 1, .piecesLoop _ [] buffer acc =>
    .ok (acc, if buffer.2 = 0 then none else some buffer)
  | fuel + 1, .piecesLoop idx (p :: ps) buffer acc =>
    if buffer.2 + p.2 ≤ size then
      match extendBuf text buffer p with
      | .error e => .error e
      | .ok b => recRun size delims text fuel (.piecesLoop idx ps b acc)
    else if buffer.2 ≠ 0 ∧ p.2 ≤ size then
      recRun size delims text fuel (.piecesLoop idx ps p (acc ++ [buffer]))
    else
      let acc2 := if buffer.2 = 0 then acc else acc ++ [buffer]
      match recRun size delims text fuel (.level (idx + 1) p (0, 0)) with
      | .error e => .error e
      | .ok (sub, leftover) =>
        recRun size delims text fuel (.piecesLoop idx ps (leftover.getD (0, 0)) (acc2 ++ sub))

/-- Fuel budget for the phase-1 recursion; generous enough for every
terminating source execution relevant here. -/
def recFuel (delims : List (List Nat)) (input : List Nat) : Nat :=
  (delims.length + 1) * (2 * input.length + 4) + 4

/-- Range version of `&r[..=ov]` (seq.rs:180): the first `ov + 1` bytes,
panicking (`boundary`) when out of bounds or off a code-point boundary of
the slice. -/
def rangePrefixIncl (text : List Nat) (r : StrRange) (ov : Nat) : Except ChunkErr StrRange :=
  if ov + 1 ≤ r.2 ∧ isCharBoundary (sliceOfR text r) (ov + 1) then .ok (r.1, ov + 1)
  else .error .boundary

/-- Range version of `&r[..ov]` (seq.rs:210). -/
def rangePrefix (text : List Nat) (r : StrRange) (ov : Nat) : Except ChunkErr StrRange :=
  if ov ≤ r.2 ∧ isCharBoundary (sliceOfR text r) ov then .ok (r.1, ov)
  else .error .boundary

/-- Range version of `&r[ov..]` (seq.rs:193, 203). -/
def rangeSuffixFrom (text : List Nat) (r : StrRange) (ov : Nat) : Except ChunkErr StrRange :=
  if ov ≤ r.2 ∧ isCharBoundary (sliceOfR text r) ov then .ok (r.1 + ov, r.2 - ov)
  else .error .boundary

/-- `concat` / `combine_str` (chunk.rs:602-607) on ranges: widen the first
range by the second range's length (raw-pointer concatenation) and validate
the widened bytes with `std::str::from_utf8`. -/
def concatR (text : List Nat) (a b : StrRange) : Except ChunkErr StrRange :=
  if isValidUtf8 ((List.take (a.1 + a.2 + b.2) text).drop a.1) then .ok (a.1, a.2 + b.2)
  else .error .utf8

/-- Phase 2 of `Recursive::chunk` (seq.rs:165-217): stitch each split with
up to `overlap` bytes borrowed from its neighbours.  `prev` carries the
previous split (`none` for the first element); the cases mirror the
source's `i == 0`, `i == splits.len() - 1` and interior branches. -/
def stitchGo (text : List Nat) (ov : Nat) :
    Option StrRange → List StrRange → Except ChunkErr (List StrRange)
  | _, [] => .ok []
  | none, [cur] => .ok [cur]
  | none, cur :: next :: rest =>
    match (if next.2 ≤ ov then .ok next else rangePrefixIncl text next ov) with
    | .error e => .error e
    | .ok nn =>
      match concatR text cur nn with
      | .error e => .error e
      | .ok c =>
        match stitchGo text ov (some cur) (next :: rest) with
        | .error e => .error e
        | .ok out => .ok (c :: out)
  | some prev, [cur] =>
    match (if prev.2 ≤ ov then .ok prev else rangeSuffixFrom text prev ov) with
    | .error e => .error e
    | .ok pp =>
      match concatR text pp cur with
      | .error e => .error e
      | .ok c => .ok [c]
  | some prev, cur :: next :: rest =>
    match (if prev.2 ≤ ov then .ok prev else rangeSuffixFrom text prev ov) with
    | .error e => .error e
    | .ok pp =>
      match (if next.2 ≤ ov then .ok next else rangePrefix text next ov) with
      | .error e => .error e
      | .ok nn =>
        match concatR text pp cur with
        | .error e => .error e
        | .ok c1 =>
          match concatR text c1 nn with
          | .error e => .error e
          | .ok c =>
            match stitchGo text ov (some cur) (next :: rest) with
            | .error e => .error e
            | .ok out => .ok (c :: out)

/-- `Recursive::chunk` (seq.rs:157-233): run phase 1 from delimiter index 0
with an empty buffer, append the leftover buffer as a final split, stitch
with overlap, and drop chunks that trim to nothing. -/
def recursiveChunk (size ov : Nat) (delims : List (List Nat)) (input : List Nat) :
    Except ChunkErr (List (List Nat)) :=
  match recRun size delims input (recFuel delims input) (.level 0 (0, input.length) (0, 0)) with
  | .error e => .error e
  | .ok (splits, leftover) =>
    let splits := splits ++ (match leftover with | some b => [b] | none => [])
    match stitchGo input ov none splits with
    | .error e => .error e
    | .ok stitched =>
      .ok (((stitched.map (sliceOfR input)).filter (fun c => !(trimAscii c).isEmpty)))

/-!
## SnappingSlidingWindow (`src/llm/chunk/ssw.rs`)

The cursors iterate `self.buf.chars()` (Unicode scalar values) while `pos`
is a byte offset; the source mixes the two units (`skip(self.pos)` skips
`pos` characters), and the embedding reproduces that mixture faithfully.
Characters are decoded from the byte text by `charsOf`.  Byte-slice
comparisons inside `peek_back` / `peek_forward` are modelled with
`drop`/`take` (Rust would additionally panic when such a slice falls inside
a multi-byte character; the peek comparisons of the claims below only run on
ASCII input, where the two agree).
-/

/-- Decoded Unicode scalar values of a UTF-8 byte sequence (best effort on
malformed input, which no genuine `&str` produces). -/
def charsOf : List Nat → List Nat
  | [] => []
  | b :: rest =>
    if b ≤ 0x7F then b :: charsOf rest
    else if b < 0xE0 then
      match rest with
      | c1 :: rest2 => ((b % 32) * 64 + c1 % 64) :: charsOf rest2
      | [] => [b]
    else if b < 0xF0 then
      match rest with
      | c1 :: c2 :: rest2 => ((b % 16) * 4096 + (c1 % 64) * 64 + c2 % 64) :: charsOf rest2
      | _ => [b]
    else
      match rest with
      | c1 :: c2 :: c3 :: rest2 =>
        ((b % 8) * 262144 + (c1 % 64) * 4096 + (c2 % 64) * 64 + c3 % 64) :: charsOf rest2
      | _ => [b]

/-- Forward scanning cursor (ssw.rs:160-165): the scanned text, a byte
position, and the delimiter character. -/
structure Cursor where
  buf : List Nat
  pos : Nat
  delim : Nat
deriving DecidableEq, Repr

/-- `Cursor::new` (ssw.rs:168). -/
def Cursor.new (input : List Nat) (delim : Nat) : Cursor :=
  ⟨input, 0, delim⟩

/-- Inner `while chars.next().is_some_and(|ch| ch == self.delim)` of
`Cursor::advance` (ssw.rs:207-210): consume the run of delimiter characters
(incrementing `pos` for each) plus the single character that ends the run;
`stop` records whether the run was empty. -/
def consumeDelims (delim : Nat) : List Nat → Nat → Bool → Nat × List Nat × Bool
  | [], pos, stop => (pos, [], stop)
  | c :: rest, pos, stop =>
    if c = delim then consumeDelims delim rest (pos + 1) false else (pos, rest, stop)

/-- Main loop of `Cursor::advance` (ssw.rs:192-218) over the remaining
character iterator, with structural fuel (one unit per iterator element
consumed suffices). -/
def cursorAdvanceGo (delim bufLen : Nat) : Nat → List Nat → Nat → Nat
  | 0, _, pos => pos
  | _ + 1, [], pos => pos
  | fuel + 1, ch :: rest, pos =>
    let pos1 := pos + 1
    if pos1 = bufLen - 1 then pos1
    else if ch = delim then
      match consumeDelims delim rest pos1 true with
      | (pos2, rest2, stop) =>
        if stop then pos2 else cursorAdvanceGo delim bufLen fuel rest2 (pos2 + 1)
    else cursorAdvanceGo delim bufLen fuel rest pos1

/-- `Cursor::advance` (ssw.rs:185-219): advance `pos` past the next
delimiter occurrence (or run of occurrences); no-op at the end of the
buffer.  The iterator `chars().skip(self.pos)` skips `pos` characters even
though `pos` counts bytes, exactly as in the source. -/
def Cursor.advance (c : Cursor) : Cursor :=
  if c.buf = [] ∨ c.pos = c.buf.length - 1 then c
  else
    let chars := (charsOf c.buf).drop c.pos
    { c with pos := cursorAdvanceGo c.delim c.buf.length (chars.length + 1) chars c.pos }

/-- `Cursor::advance_exact` (ssw.rs:222-227): when `pos + amt` reaches the
end, `pos` is first clamped to `len - 1` and then still incremented by
`amt`, exactly as in the source. -/
def Cursor.advance_exact (c : Cursor) (amt : Nat) : Cursor :=
  if c.buf.length ≤ c.pos + amt then { c with pos := c.buf.length - 1 + amt }
  else { c with pos := c.pos + amt }

/-- `Cursor::peek_back` (ssw.rs:229-244). -/
def Cursor.peek_back (c : Cursor) (pat : List Nat) : Bool :=
  if c.pos - pat.length = 0 then false
  else if c.pos = c.buf.length - 1 then
    if c.buf.drop c.pos = [46] then
      decide (((c.buf.drop (c.pos - pat.length)).take pat.length) = pat)
    else decide (((c.buf.drop (c.pos - pat.length)).take (pat.length + 1)) = pat)
  else decide (((c.buf.drop (c.pos - 1 - pat.length)).take pat.length) = pat)

/-- `Cursor::peek_forward` (ssw.rs:246-251). -/
def Cursor.peek_forward (c : Cursor) (pat : List Nat) : Bool :=
  if c.buf.length ≤ c.pos + pat.length then false
  else decide (((c.buf.drop c.pos).take pat.length) = pat)

/-- `Cursor::advance_if_peek` (ssw.rs:253-268): back patterns are tested
first and do not move the cursor; a forward match advances past the
pattern. -/
def Cursor.advance_if_peek (c : Cursor) (forward back : List (List Nat)) : Cursor × Bool :=
  match back.find? (fun s => c.peek_back s) with
  | some _ => (c, true)
  | none =>
    match forward.find? (fun s => c.peek_forward s) with
    | some s => (c.advance_exact s.length, true)
    | none => (c, false)

/-- `Cursor::get_slice` (ssw.rs:176-181), with the bounds/boundary check of
`&buf[..pos]` made explicit (Rust panics where this returns `boundary`). -/
def Cursor.get_sliceE (c : Cursor) : Except ChunkErr (List Nat) :=
  if c.buf = [] ∨ c.pos = c.buf.length - 1 then .ok c.buf
  else if c.pos ≤ c.buf.length ∧ isCharBoundary c.buf c.pos then .ok (c.buf.take c.pos)
  else .error .boundary

/-- Backward scanning cursor (ssw.rs:273-283). -/
structure CursorRev where
  buf : List Nat
  pos : Nat
  delim : Nat
deriving DecidableEq, Repr

/-- `CursorRev::new` (ssw.rs:286): starts at the last byte. -/
def CursorRev.new (input : List Nat) (delim : Nat) : CursorRev :=
  ⟨input, input.length - 1, delim⟩

/-- Delimiter-run consumption inside `CursorRev::advance` (ssw.rs:326-329),
decrementing `pos`. -/
def consumeDelimsRev (delim : Nat) : List Nat → Nat → Bool → Nat × List Nat × Bool
  | [], pos, stop => (pos, [], stop)
  | c :: rest, pos, stop =>
    if c = delim then consumeDelimsRev delim rest (pos - 1) false else (pos, rest, stop)

/-- Main loop of `CursorRev::advance` (ssw.rs:310-344) over the reversed
character iterator. -/
def cursorRevGo (delim : Nat) : Nat → List Nat → Nat → Bool → Nat
  | 0, _, pos, _ => pos
  | _ + 1, [], pos, _ => pos
  | fuel + 1, ch :: rest, pos, first =>
    let pos1 := pos - 1
    if pos1 = 0 then pos1
    else if ch = delim then
      match consumeDelimsRev delim rest pos1 true with
      | (pos2, rest2, stop) =>
        let pos3 := if stop then pos2 else pos2 - 1
        if stop ∧ first = false then pos3
        else cursorRevGo delim fuel rest2 pos3 false
    else cursorRevGo delim fuel rest pos1 first

/-- `CursorRev::advance` (ssw.rs:302-345): move `pos` backward to the
previous delimiter position.  As in the source, the reversed character
iterator skips `buf.len() - 1 - pos` characters although `pos` counts
bytes. -/
def CursorRev.advance (c : CursorRev) : CursorRev :=
  if c.pos = 0 then c
  else
    let chars := ((charsOf c.buf).reverse).drop (c.buf.length - 1 - c.pos)
    { c with pos := cursorRevGo c.delim (chars.length + 1) chars c.pos true }

/-- `CursorRev::advance_exact` (ssw.rs:348-351): saturating decrement. -/
def CursorRev.advance_exact (c : CursorRev) (amt : Nat) : CursorRev :=
  { c with pos := c.pos - amt }

/-- `CursorRev::peek_back` (ssw.rs:353-355): compare
`&buf[pos.saturating_sub(pat.len())..pos]` with the pattern. -/
def CursorRev.peek_back (c : CursorRev) (pat : List Nat) : Bool :=
  decide (((c.buf.drop (c.pos - pat.length)).take (c.pos - (c.pos - pat.length))) = pat)

/-- `CursorRev::peek_forward` (ssw.rs:357-367). -/
def CursorRev.peek_forward (c : CursorRev) (pat : List Nat) : Bool :=
  if c.buf.length ≤ c.pos + pat.length then false
  else
    let start := if c.pos = 0 then 0 else c.pos + 1
    let stop := c.pos + pat.length + (if 0 < c.pos then 1 else 0)
    decide (((c.buf.drop start).take (stop - start)) = pat)

/-- `CursorRev::advance_if_peek` (ssw.rs:369-384): a back match moves the
cursor back past the pattern; a forward match only reports. -/
def CursorRev.advance_if_peek (c : CursorRev) (forward back : List (List Nat)) :
    CursorRev × Bool :=
  match back.find? (fun s => c.peek_back s) with
  | some s => (c.advance_exact s.length, true)
  | none =>
    match forward.find? (fun s => c.peek_forward s) with
    | some _ => (c, true)
    | none => (c, false)

/-- `CursorRev::get_slice` (ssw.rs:294-300), with the `&buf[pos + 1..]`
check made explicit. -/
def CursorRev.get_sliceE (c : CursorRev) : Except ChunkErr (List Nat) :=
  if c.pos = 0 then .ok c.buf
  else if c.pos + 1 ≤ c.buf.length ∧ isCharBoundary c.buf (c.pos + 1) then
    .ok (c.buf.drop (c.pos + 1))
  else .error .boundary

/-- `concat` as called by `SnappingSlidingWindow::chunk` (= `combine_str`,
chunk.rs:602-607).  Every call site concatenates two adjacent slices of the
input, where widening the first slice by the second slice's length yields
exactly the byte concatenation; the `std::str::from_utf8` re-check of the
source is kept. -/
def concatC (a b : List Nat) : Except ChunkErr (List Nat) :=
  if isValidUtf8 (a ++ b) then .ok (a ++ b) else .error .utf8

/-- Inner `loop { p_cursor.advance(); if !p_cursor.advance_if_peek(..) {
break } }` of the overlap pass (ssw.rs:112-117). -/
def skipLoopRev (sf sb : List (List Nat)) : Nat → CursorRev → Except ChunkErr CursorRev
  | 0, _ => .error .diverge
  | fuel + 1, pc =>
    let pc := pc.advance
    match pc.advance_if_peek sf sb with
    | (pc, true) => skipLoopRev sf sb fuel pc
    | (pc, false) => .ok pc

/-- Inner `loop { n_cursor.advance(); ... }` of the overlap pass
(ssw.rs:119-124). -/
def skipLoopFwd (sf sb : List (List Nat)) : Nat → Cursor → Except ChunkErr Cursor
  | 0, _ => .error .diverge
  | fuel + 1, nc =>
    let nc := nc.advance
    match nc.advance_if_peek sf sb with
    | (nc, true) => skipLoopFwd sf sb fuel nc
    | (nc, false) => .ok nc

/-- `for _ in 0..overlap` of ssw.rs:111-125: advance both context cursors
by one real (non-skipped) sentence boundary per round. -/
def overlapRounds (sf sb : List (List Nat)) :
    Nat → CursorRev → Cursor → Except ChunkErr (CursorRev × Cursor)
  | 0, pc, nc => .ok (pc, nc)
  | n + 1, pc, nc =>
    match skipLoopRev sf sb (pc.buf.length + 2) pc with
    | .error e => .error e
    | .ok pc =>
      match skipLoopFwd sf sb (nc.buf.length + 2) nc with
      | .error e => .error e
      | .ok nc => overlapRounds sf sb n pc nc

/-- Main loop of `SnappingSlidingWindow::chunk` (ssw.rs:81-141), with
structural fuel for the unbounded `loop`. -/
def sswLoop (size overlap delim : Nat) (sf sb : List (List Nat)) (input : List Nat) :
    Nat → Cursor → List Nat → Nat → List (List Nat) → Except ChunkErr (List (List Nat))
  | 0, _, _, _, _ => .error .diverge
  | fuel + 1, cursor, chunk, start, acc =>
    if input.length ≤ start then
      .ok (acc ++ if chunk = [] then [] else [chunk])
    else
      let cursor := cursor.advance
      match cursor.advance_if_peek sf sb with
      | (cursor, true) => sswLoop size overlap delim sf sb input fuel cursor chunk start acc
      | (cursor, false) =>
        match sliceChecked input start cursor.pos with
        | .error e => .error e
        | .ok piece =>
          match concatC chunk piece with
          | .error e => .error e
          | .ok chunk =>
            let start := start + piece.length
            if chunk.length < size then
              sswLoop size overlap delim sf sb input fuel cursor chunk start acc
            else
              if cursor.pos < chunk.length then .error .boundary
              else
                match sliceChecked input 0 (cursor.pos - chunk.length),
                    sliceChecked input cursor.pos input.length with
                | .error e, _ => .error e
                | _, .error e => .error e
                | .ok prev, .ok next =>
                  match overlapRounds sf sb overlap
                      (CursorRev.new prev delim) (Cursor.new next delim) with
                  | .error e => .error e
                  | .ok (pc, nc) =>
                    match pc.get_sliceE, nc.get_sliceE with
                    | .error e, _ => .error e
                    | _, .error e => .error e
                    | .ok prevS, .ok nextS =>
                      match concatC prevS chunk with
                      | .error e => .error e
                      | .ok cf1 =>
                        match concatC cf1 nextS with
                        | .error e => .error e
                        | .ok chunkFull =>
                          let acc := acc ++ [chunkFull]
                          let start := start + 1
                          if input.length ≤ start + nc.pos then .ok acc
                          else
                            match sliceChecked input (start - 1) start with
                            | .error e => .error e
                            | .ok chunk =>
                              sswLoop size overlap delim sf sb input fuel cursor chunk start acc

/-- `SnappingSlidingWindow::chunk` (ssw.rs:66-144): the initial
`&input[..1]` slice (a panic on empty input), then the main loop from
`start = 1` with an empty chunk accumulator. -/
def sswChunk (size overlap delim : Nat) (sf sb : List (List Nat)) (input : List Nat) :
    Except ChunkErr (List (List Nat)) :=
  match sliceChecked input 0 1 with
  | .error e => .error e
  | .ok chunk =>
    sswLoop size overlap delim sf sb input ((overlap + 4) * (input.length + 4))
      (Cursor.new input delim) chunk 1 []

/-- Default `skip_forward` list of `SnappingSlidingWindow` (ssw.rs:154). -/
def defaultSkipForward : List (List Nat) :=
  [asciiBytes "com", asciiBytes "org", asciiBytes "net", asciiBytes "g.", asciiBytes "e.",
   asciiBytes "sh", asciiBytes "rs", asciiBytes "js", asciiBytes "json"]

/-- Default `skip_back` list of `SnappingSlidingWindow` (ssw.rs:155). -/
def defaultSkipBack : List (List Nat) :=
  [asciiBytes "www", asciiBytes "etc", asciiBytes "e.g", asciiBytes "i.e"]

/-- Occurrence of a byte pattern inside a text (Rust `str::contains`):
some suffix of the text starts with the pattern.  The empty pattern occurs
in every text. -/
def containsSeq (pat : List Nat) : List Nat → Bool
  | [] => decide (pat = [])
  | b :: rest => pat.isPrefixOf (b :: rest) || containsSeq pat rest

/-- Non-overlapping core of every chunk after the first, per the spec's
round-trip property: drop the leading `ov` overlap bytes of each chunk and
the trailing `ov` overlap bytes of every chunk but the last, and
concatenate. -/
def coresJoin (ov : Nat) : List (List Nat) → List Nat
  | [] => []
  | c :: rest =>
    match rest with
    | [] => c.drop ov
    | _ :: _ => ((c.drop ov).take (c.length - ov - ov)) ++ coresJoin ov rest

/-- Concatenation of the non-overlapping cores of a chunk sequence (the
first chunk has no leading overlap margin to remove). -/
def coresJoinAll (ov : Nat) : List (List Nat) → List Nat
  | [] => []
  | c :: rest =>
    match rest with
    | [] => c
    | _ :: _ => (c.take (c.length - ov)) ++ coresJoin ov rest

/-!
## Supporting lemmas
-/

/-- ASCII text has a code-point boundary at every offset within bounds. -/
theorem ascii_boundary (text : List Nat) (h : allAscii text) (p : Nat)
    (hp : p ≤ text.length) : isCharBoundary text p = true := by
  unfold isCharBoundary
  rcases Nat.lt_or_ge p text.length with hlt | hge
  · have h128 : text[p] < 128 := h _ (List.getElem_mem hlt)
    have hcont : isContByte text[p] = false := by
      unfold isContByte
      simp only [Bool.and_eq_false_iff, decide_eq_false_iff_not]
      omega
    simp [hlt, hcont]
  · have : p = text.length := Nat.le_antisymm hp hge
    simp [this]

/-- Rust slicing never fails on in-bounds, ordered offsets of ASCII text. -/
theorem sliceChecked_ascii (text : List Nat) (h : allAscii text) (a b : Nat)
    (hab : a ≤ b) (hb : b ≤ text.length) :
    sliceChecked text a b = .ok ((List.take b text).drop a) := by
  unfold sliceChecked sliceOk
  rw [ascii_boundary text h a (le_trans hab hb), ascii_boundary text h b hb]
  simp [hab]

/-- Slicing failures are always `boundary` errors. -/
theorem sliceChecked_error_eq (text : List Nat) (a b : Nat) (e : ChunkErr)
    (h : sliceChecked text a b = .error e) : e = .boundary := by
  unfold sliceChecked at h
  split at h
  · exact Except.noConfusion h
  · injection h with h2
    exact h2.symm

/-- The sliding-window loop can only fail with a slicing panic or fuel
exhaustion, never with a `Config` error. -/
theorem swChunkLoop_ne_config (size ov L : Nat) (text : List Nat) :
    ∀ fuel start en, swChunkLoop size ov L text fuel start en ≠ .error .config := by
  intro fuel
  induction fuel with
  | zero => intro start en h; simp [swChunkLoop] at h
  | succ n ih =>
    intro start en h
    simp only [swChunkLoop] at h
    by_cases hce : L < en + ov
    · rw [if_pos hce] at h
      cases hs : sliceChecked text (if start = 0 then 0 else start - ov) L with
      | error e =>
        rw [hs] at h
        simp only [Except.error.injEq] at h
        have hb := sliceChecked_error_eq _ _ _ _ hs
        rw [h] at hb
        exact ChunkErr.noConfusion hb
      | ok c =>
        rw [hs] at h
        exact Except.noConfusion h
    · rw [if_neg hce] at h
      cases hs : sliceChecked text (if start = 0 then 0 else start - ov) (en + ov) with
      | error e =>
        rw [hs] at h
        simp only [Except.error.injEq] at h
        have hb := sliceChecked_error_eq _ _ _ _ hs
        rw [h] at hb
        exact ChunkErr.noConfusion hb
      | ok c =>
        rw [hs] at h
        cases ht : swChunkLoop size ov L text n en (en + size) with
        | error e =>
          rw [ht] at h
          simp only [Except.error.injEq] at h
          exact ih en (en + size) (h ▸ ht)
        | ok rest =>
          rw [ht] at h
          exact Except.noConfusion h

/-!
## Claim theorems
-/

/-- C1 (code bug witness): the claim says no chunker ever slices off a
code-point boundary, but `SlidingWindow::chunk` computes byte offsets with
plain arithmetic and slices directly: with `size = 3`, `overlap = 0` (a
configuration accepted by `SlidingWindow::new`) on the 6-byte input
`"ééé"`, the first window ends at byte offset 3, the middle of the second
two-byte character, so the slice panics (the spec's BoundaryViolation). -/
theorem sw_boundary_violation_eval :
    SlidingWindow.new 3 0 = .ok ⟨3, 0⟩ ∧
    swChunk 3 0 [195, 169, 195, 169, 195, 169] = .error .boundary := by
  exact ⟨by decide, by decide⟩

/-- C7: `SlidingWindow::new` returns a `Config` error exactly when
`overlap >= size`, and `chunk` itself never produces a `Config` error on
any input. -/
theorem sw_config_error_only_at_construction (size ov : Nat) :
    (SlidingWindow.new size ov = .error .config ↔ size ≤ ov) ∧
    ∀ input, swChunk size ov input ≠ .error .config := by
  constructor
  · unfold SlidingWindow.new
    constructor
    · intro h
      by_contra hlt
      rw [if_neg hlt] at h
      exact Except.noConfusion h
    · intro h
      simp [h]
  · intro input h
    simp only [swChunk] at h
    split at h
    · exact Except.noConfusion h
    · split at h
      · exact Except.noConfusion h
      · exact swChunkLoop_ne_config _ _ _ _ _ _ _ h

/-- C7 witness: concrete instances of both conjuncts. -/
theorem sw_config_error_only_at_construction_witness :
    (SlidingWindow.new 3 5 = .error .config ↔ 3 ≤ 5) ∧
    swChunk 3 1 [97] ≠ .error .config :=
  ⟨(sw_config_error_only_at_construction 3 5).1,
   (sw_config_error_only_at_construction 3 1).2 [97]⟩

/-- C9: a configuration with `overlap < size` on input that trims to
nothing yields zero chunks. -/
theorem sw_empty_input_no_chunks (size ov : Nat) (input : List Nat)
    (_hov : ov < size) (h : trimAscii input = []) :
    swChunk size ov input = .ok [] := by
  unfold swChunk
  simp [h]

/-- C9 witness at whitespace-only input. -/
theorem sw_empty_input_no_chunks_witness :
    1 < 30 ∧ trimAscii (asciiBytes "  ") = [] ∧
      swChunk 30 1 (asciiBytes "  ") = .ok [] :=
  ⟨by decide, by decide, sw_empty_input_no_chunks 30 1 (asciiBytes "  ") (by decide) (by decide)⟩

/-- C8: with `overlap < size` and a non-empty trimmed input of length at
most `size + overlap`, `chunk` returns exactly the whole trimmed input as a
single chunk. -/
theorem sw_single_chunk_small_input (size ov : Nat) (input : List Nat)
    (_hov : ov < size) (hne : trimAscii input ≠ [])
    (hlen : (trimAscii input).length ≤ size + ov) :
    swChunk size ov input = .ok [trimAscii input] := by
  unfold swChunk
  simp [hne, hlen]

/-- C8 witness: the source's `sliding_window_small_input` test instance. -/
theorem sw_single_chunk_small_input_witness :
    swChunk 30 20 (asciiBytes "Foobar") = .ok [trimAscii (asciiBytes "Foobar")] :=
  sw_single_chunk_small_input 30 20 (asciiBytes "Foobar") (by decide) (by decide) (by decide)

set_option maxRecDepth 40000

/-- C4 (counterexample): on an actual 141-byte input (here 141 letters
`a`, no surrounding whitespace) with `size = 30`, `overlap = 20`, the code
produces five chunks `input[0..50]`, `input[10..80]`, `input[40..110]`,
`input[70..140]`, `input[100..141]`; the final chunk is `input[100..141]`,
not `input[70..141]` as claimed (the spec's walkthrough fits the 139-byte
test string, not a 141-byte input). -/
theorem sw_141_counterexample :
    swChunk 30 20 (List.replicate 141 97) =
      .ok [List.replicate 50 97, List.replicate 70 97, List.replicate 70 97,
           List.replicate 70 97, List.replicate 41 97] ∧
    List.replicate 41 97 ≠ ((List.replicate 141 97).take 141).drop 70 := by
  exact ⟨by decide, by decide⟩

/-- C3: SnappingSlidingWindow with `skip_back = ["etc", "foobar"]`,
`size = 1`, `overlap = 1` on the spec's sentence produces exactly two
chunks; the first ends after "This one contains more." (the delimiters
after "etc" and after "foobar" are suppressed), and the second is the whole
input. -/
theorem ssw_skip_back_exact :
    sswChunk 1 1 46 defaultSkipForward [asciiBytes "etc", asciiBytes "foobar"]
      (asciiBytes "I have a sentence. It contains letters, words, etc. This one contains more. The most important of which is foobar., because it must be skipped.") =
    .ok [asciiBytes "I have a sentence. It contains letters, words, etc. This one contains more.",
         asciiBytes "I have a sentence. It contains letters, words, etc. This one contains more. The most important of which is foobar., because it must be skipped."] := by
  decide

/-- C10: `SnappingSlidingWindow::chunk` starts by slicing `&input[..1]`,
which panics on the empty input (no result is returned); on any non-empty
ASCII input the same initial slice is in bounds and succeeds. -/
theorem ssw_empty_input_panics :
    (∀ size overlap delim sf sb, sswChunk size overlap delim sf sb [] = .error .boundary) ∧
    (∀ input : List Nat, input ≠ [] → allAscii input →
      sliceChecked input 0 1 = .ok (input.take 1)) := by
  constructor
  · intro size overlap delim sf sb
    rfl
  · intro input hne ha
    have hlen : 1 ≤ input.length := by
      cases input with
      | nil => exact absurd rfl hne
      | cons b t => simp
    rw [sliceChecked_ascii input ha 0 1 (by omega) hlen]
    simp

/-- C10 witness: the empty input panics for the default configuration, and
a one-byte ASCII input slices successfully. -/
theorem ssw_empty_input_panics_witness :
    sswChunk 1000 5 46 defaultSkipForward defaultSkipBack [] = .error .boundary ∧
    sliceChecked [97] 0 1 = .ok [97] :=
  ⟨ssw_empty_input_panics.1 1000 5 46 defaultSkipForward defaultSkipBack,
   ssw_empty_input_panics.2 [97] (by decide) (by decide)⟩

/-- C2 (counterexample): with `size = 2`, `overlap = 0` and delimiter list
`[" "]` on input `"a b c"`, the first emitted chunk is `"a b"` of length 3,
exceeding `size + 2*overlap = 2` (the first-chunk branch borrows
`overlap + 1` bytes from the next split via `&next[..=overlap]`). -/
theorem recursive_overlap_bound_counterexample :
    recursiveChunk 2 0 [[32]] (asciiBytes "a b c") =
      .ok [asciiBytes "a b", asciiBytes "a b ", asciiBytes "b c"] ∧
    ¬ (asciiBytes "a b").length ≤ 2 + 2 * 0 := by
  exact ⟨by decide, by decide⟩

/-- Unfolding equation for one iteration of the sliding-window loop. -/
theorem swChunkLoop_succ (size ov L : Nat) (text : List Nat) (fuel start en : Nat) :
    swChunkLoop size ov L text (fuel + 1) start en =
      (let cs := if start = 0 then 0 else start - ov
       let ce := en + ov
       if L < ce then
         match sliceChecked text cs L with
         | .error e => .error e
         | .ok c => .ok [c]
       else
         match sliceChecked text cs ce with
         | .error e => .error e
         | .ok c =>
           match swChunkLoop size ov L text fuel en (en + size) with
           | .error e => .error e
           | .ok rest => .ok (c :: rest)) := rfl

/-- C4 (amended): for SlidingWindow(size=30, overlap=20) on any 141-byte
ASCII input without surrounding whitespace, `chunk` returns the five chunks
`input[0..50]`, `input[10..80]`, `input[40..110]`, `input[70..140]` and the
final, truncated `input[100..141]`. -/
theorem sw_141_chunks (input : List Nat) (ha : allAscii input)
    (hlen : input.length = 141) (ht : trimAscii input = input) :
    swChunk 30 20 input = .ok [(List.take 50 input).drop 0, (List.take 80 input).drop 10,
      (List.take 110 input).drop 40, (List.take 140 input).drop 70,
      (List.take 141 input).drop 100] := by
  have hne : input ≠ [] := by intro h; rw [h] at hlen; exact absurd hlen (by decide)
  simp only [swChunk, ht, hlen]
  rw [if_neg hne, if_neg (by omega : ¬ (141 ≤ 30 + 20))]
  rw [show (141 + 2 : Nat) = 142 + 1 from rfl, swChunkLoop_succ]
  norm_num
  rw [sliceChecked_ascii input ha 0 50 (by omega) (by omega)]
  rw [show (142 : Nat) = 141 + 1 from rfl, swChunkLoop_succ]
  norm_num
  rw [sliceChecked_ascii input ha 10 80 (by omega) (by omega)]
  rw [show (141 : Nat) = 140 + 1 from rfl, swChunkLoop_succ]
  norm_num
  rw [sliceChecked_ascii input ha 40 110 (by omega) (by omega)]
  rw [show (140 : Nat) = 139 + 1 from rfl, swChunkLoop_succ]
  norm_num
  rw [sliceChecked_ascii input ha 70 140 (by omega) (by omega)]
  rw [show (139 : Nat) = 138 + 1 from rfl, swChunkLoop_succ]
  norm_num
  rw [sliceChecked_ascii input ha 100 141 (by omega) (by omega)]

/-- C4 witness: the amended statement instantiated at 141 letters `a`. -/
theorem sw_141_chunks_witness :
    swChunk 30 20 (List.replicate 141 97) =
      .ok [(List.take 50 (List.replicate 141 97)).drop 0,
           (List.take 80 (List.replicate 141 97)).drop 10,
           (List.take 110 (List.replicate 141 97)).drop 40,
           (List.take 140 (List.replicate 141 97)).drop 70,
           (List.take 141 (List.replicate 141 97)).drop 100] :=
  sw_141_chunks (List.replicate 141 97) (by decide) (by decide) (by decide)

/-- Empty pattern occurs in every text. -/
theorem containsSeq_nil_pat (text : List Nat) : containsSeq [] text = true := by
  cases text with
  | nil => simp [containsSeq]
  | cons b rest => simp [containsSeq]

/-- A pattern that prefixes some suffix of the text occurs in the text. -/
theorem containsSeq_of_prefix_drop (pat text : List Nat) (i : Nat)
    (h : pat <+: text.drop i) : containsSeq pat text = true := by
  induction text generalizing i with
  | nil =>
    simp only [List.drop_nil] at h
    rw [List.prefix_nil] at h
    simp [containsSeq, h]
  | cons b rest ih =>
    cases i with
    | zero =>
      simp only [List.drop_zero] at h
      simp [containsSeq, List.isPrefixOf_iff_prefix.mpr h]
    | succ j =>
      simp only [List.drop_succ_cons] at h
      simp [containsSeq, ih j h]

/-- A pattern that is a suffix of some prefix of the text occurs in the
text. -/
theorem containsSeq_of_suffix_take (pat text : List Nat) (m : Nat)
    (h : pat <:+ text.take m) : containsSeq pat text = true := by
  obtain ⟨s, hs⟩ := h
  apply containsSeq_of_prefix_drop pat text s.length
  have htext : text = s ++ (pat ++ text.drop m) := by
    rw [← List.append_assoc, hs, List.take_append_drop]
  conv in text.drop s.length => rw [htext]
  rw [List.drop_left]
  exact List.prefix_append pat _

/-- If no extension of the accumulator by a prefix of the remaining text
ends with the delimiter, the inclusive-split scan emits a single piece. -/
theorem splitIncAux_no_occur (delim : List Nat) :
    ∀ (text cur : List Nat),
      (∀ k, delim.isSuffixOf (cur ++ text.take (k + 1)) = false) →
      cur ++ text ≠ [] →
      splitIncAux delim text cur = [cur ++ text] := by
  intro text
  induction text with
  | nil =>
    intro cur h hne
    simp only [List.append_nil] at hne ⊢
    simp [splitIncAux, hne]
  | cons b rest ih =>
    intro cur h hne
    simp only [splitIncAux]
    have hsuf : delim.isSuffixOf (cur ++ [b]) = false := by
      have h0 := h 0
      simpa using h0
    rw [if_neg]
    · have hih := ih (cur ++ [b]) (fun k => by
        have hk := h (k + 1)
        simp only [List.take_succ_cons] at hk ⊢
        simpa [List.append_assoc] using hk) (by simp)
      rw [hih]
      simp
    · intro hcond
      rw [hsuf] at hcond
      simp at hcond

/-- `split_inclusive` with a delimiter that does not occur in a non-empty
text returns the whole text as the only piece. -/
theorem splitIncBytes_no_occur (delim text : List Nat)
    (hocc : containsSeq delim text = false) (hne : text ≠ []) :
    splitIncBytes delim text = [text] := by
  have hd : delim ≠ [] := by
    intro h
    rw [h, containsSeq_nil_pat] at hocc
    cases hocc
  unfold splitIncBytes
  rw [if_neg hd]
  have hmain := splitIncAux_no_occur delim text [] (fun k => by
    rw [List.nil_append]
    by_contra hk
    simp only [Bool.not_eq_false] at hk
    have hsuffix : delim <:+ text.take (k + 1) := List.isSuffixOf_iff_suffix.mp hk
    have := containsSeq_of_suffix_take delim text (k + 1) hsuffix
    rw [this] at hocc
    cases hocc) (by simpa using hne)
  simpa using hmain

/-- The full-text range slices to the text itself. -/
theorem sliceOfR_full (text : List Nat) : sliceOfR text (0, text.length) = text := by
  unfold sliceOfR
  simp

/-- Unfolding equation: entering `chunk_recursive` at delimiter index
`idx`. -/
theorem recRun_succ_level (size : Nat) (delims : List (List Nat)) (text : List Nat)
    (fuel idx : Nat) (input buffer : StrRange) :
    recRun size delims text (fuel + 1) (.level idx input buffer) =
      (if delims.length ≤ idx then .ok ([], none)
       else recRun size delims text fuel
         (.piecesLoop idx (splitIncOffsets (delims.getD idx []) text input) buffer [])) := rfl

/-- Unfolding equation: the piece loop with no pieces left returns the
accumulated splits and the leftover buffer. -/
theorem recRun_succ_nil (size : Nat) (delims : List (List Nat)) (text : List Nat)
    (fuel idx : Nat) (buffer : StrRange) (acc : List StrRange) :
    recRun size delims text (fuel + 1) (.piecesLoop idx [] buffer acc) =
      .ok (acc, if buffer.2 = 0 then none else some buffer) := rfl

/-- Unfolding equation: one step of the piece loop. -/
theorem recRun_succ_cons (size : Nat) (delims : List (List Nat)) (text : List Nat)
    (fuel idx : Nat) (p : StrRange) (ps : List StrRange) (buffer : StrRange)
    (acc : List StrRange) :
    recRun size delims text (fuel + 1) (.piecesLoop idx (p :: ps) buffer acc) =
      (if buffer.2 + p.2 ≤ size then
        match extendBuf text buffer p with
        | .error e => .error e
        | .ok b => recRun size delims text fuel (.piecesLoop idx ps b acc)
      else if buffer.2 ≠ 0 ∧ p.2 ≤ size then
        recRun size delims text fuel (.piecesLoop idx ps p (acc ++ [buffer]))
      else
        let acc2 := if buffer.2 = 0 then acc else acc ++ [buffer]
        match recRun size delims text fuel (.level (idx + 1) p (0, 0)) with
        | .error e => .error e
        | .ok (sub, leftover) =>
          recRun size delims text fuel
            (.piecesLoop idx ps (leftover.getD (0, 0)) (acc2 ++ sub))) := rfl

/-- When no delimiter occurs in the oversized input, every recursion level
splits the whole input into a single oversized piece, pushes nothing, and
descends until the delimiters are exhausted: no splits are produced. -/
theorem recRun_no_occur (size : Nat) (delims : List (List Nat)) (text : List Nat)
    (hocc : ∀ d ∈ delims, containsSeq d text = false) (hsz : size < text.length) :
    ∀ k idx fuel, delims.length - idx ≤ k → 2 * k + 1 ≤ fuel →
      recRun size delims text fuel (.level idx (0, text.length) (0, 0)) = .ok ([], none) := by
  intro k
  induction k with
  | zero =>
    intro idx fuel hk hf
    have hidx : delims.length ≤ idx := by omega
    obtain ⟨f, rfl⟩ : ∃ f, fuel = f + 1 := ⟨fuel - 1, by omega⟩
    rw [recRun_succ_level, if_pos hidx]
  | succ k ih =>
    intro idx fuel hk hf
    obtain ⟨f, rfl⟩ : ∃ f, fuel = f + 1 := ⟨fuel - 1, by omega⟩
    rw [recRun_succ_level]
    by_cases hidx : delims.length ≤ idx
    · rw [if_pos hidx]
    · rw [if_neg hidx]
      have hmem : delims.getD idx [] ∈ delims := by
        rw [List.getD_eq_getElem delims [] (by omega)]
        exact List.getElem_mem (by omega)
      have hne : text ≠ [] := by
        intro h
        rw [h] at hsz
        simp at hsz
      have hsplit : splitIncOffsets (delims.getD idx []) text (0, text.length) =
          [(0, text.length)] := by
        unfold splitIncOffsets
        rw [sliceOfR_full, splitIncBytes_no_occur _ _ (hocc _ hmem) hne]
        simp [offsetPieces]
      rw [hsplit]
      obtain ⟨f2, rfl⟩ : ∃ f2, f = f2 + 1 := ⟨f - 1, by omega⟩
      rw [recRun_succ_cons]
      rw [if_neg (by simp; omega)]
      rw [if_neg (by simp)]
      rw [ih (idx + 1) f2 (by omega) (by omega)]
      simp only [Option.getD_none, List.nil_append]
      obtain ⟨f3, rfl⟩ : ∃ f3, f2 = f3 + 1 := ⟨f2 - 1, by omega⟩
      rw [recRun_succ_nil]
      simp

/-- C6: the Recursive chunker on an input longer than `size` with a
delimiter list none of whose entries occurs in the input returns no chunks
at all - the whole input is skipped as oversized at every delimiter
level. -/
theorem recursive_no_delim_empty (size ov : Nat) (delims : List (List Nat))
    (input : List Nat) (hsz : size < input.length)
    (hocc : ∀ d ∈ delims, containsSeq d input = false) :
    recursiveChunk size ov delims input = .ok [] := by
  unfold recursiveChunk
  have hfuel : 2 * delims.length + 1 ≤ recFuel delims input := by
    unfold recFuel
    have h4 : (delims.length + 1) * 4 ≤ (delims.length + 1) * (2 * input.length + 4) :=
      Nat.mul_le_mul_left _ (by omega)
    omega
  rw [recRun_no_occur size delims input hocc hsz delims.length 0 (recFuel delims input)
    (by omega) hfuel]
  simp [stitchGo]

/-- C6 witness: the source's `recursive_small_input_custom_delims` test
instance, `Recursive::new(5, 0, ["foo"])` on a 33-byte input. -/
theorem recursive_no_delim_empty_witness :
    recursiveChunk 5 0 [asciiBytes "foo"] (asciiBytes "Supercalifragilisticexpialadocius") =
      .ok [] :=
  recursive_no_delim_empty 5 0 [asciiBytes "foo"]
    (asciiBytes "Supercalifragilisticexpialadocius") (by decide)
    (by intro d hd; simp at hd; rw [hd]; decide)

/-- A successful buffer extension widens by exactly the piece's length. -/
theorem extendBuf_ok_len (text : List Nat) (buffer p b : StrRange)
    (h : extendBuf text buffer p = .ok b) : b.2 = buffer.2 + p.2 := by
  unfold extendBuf at h
  split at h
  all_goals simp only [] at h
  all_goals split at h
  all_goals first
    | (injection h with h2; rw [← h2])
    | exact Except.noConfusion h

/-- Every split pushed by `chunk_recursive` has length at most `size`, and
so does the leftover buffer, provided the incoming buffer and accumulator
already satisfy the bound (they are empty at the top-level call). -/
theorem recRun_split_bound (size : Nat) (delims : List (List Nat)) (text : List Nat) :
    ∀ fuel c splits leftover,
      recRun size delims text fuel c = .ok (splits, leftover) →
      (match c with
       | .level _ _ buffer => buffer.2 ≤ size
       | .piecesLoop _ _ buffer acc => buffer.2 ≤ size ∧ ∀ r ∈ acc, r.2 ≤ size) →
      (∀ r ∈ splits, r.2 ≤ size) ∧ (∀ b, leftover = some b → b.2 ≤ size) := by
  intro fuel
  induction fuel with
  | zero =>
    intro c splits leftover h hinv
    exact absurd h (by simp [recRun])
  | succ n ih =>
    intro c splits leftover h hinv
    cases c with
    | level idx input buffer =>
      rw [recRun_succ_level] at h
      split at h
      · injection h with h2
        injection h2 with h3 h4
        subst h3
        subst h4
        exact ⟨by simp, by simp⟩
      · exact ih _ _ _ h ⟨hinv, by simp⟩
    | piecesLoop idx pieces buffer acc =>
      obtain ⟨hbuf, hacc⟩ := hinv
      cases pieces with
      | nil =>
        rw [recRun_succ_nil] at h
        injection h with h2
        injection h2 with h3 h4
        subst h3
        constructor
        · exact hacc
        · intro b hb
          rw [← h4] at hb
          split at hb
          · exact Option.noConfusion hb
          · injection hb with h5
            rw [← h5]
            exact hbuf
      | cons p ps =>
        rw [recRun_succ_cons] at h
        split at h
        · rename_i hfit
          cases hb : extendBuf text buffer p with
          | error e => rw [hb] at h; exact Except.noConfusion h
          | ok b =>
            rw [hb] at h
            refine ih _ _ _ h ⟨?_, hacc⟩
            rw [extendBuf_ok_len text buffer p b hb]
            exact hfit
        · split at h
          · rename_i hfit hsm
            refine ih _ _ _ h ⟨hsm.2, ?_⟩
            intro r hr
            rw [List.mem_append] at hr
            rcases hr with hr | hr
            · exact hacc r hr
            · rw [List.mem_singleton] at hr
              rw [hr]
              exact hbuf
          · cases hsub : recRun size delims text n (.level (idx + 1) p (0, 0)) with
            | error e => rw [hsub] at h; exact Except.noConfusion h
            | ok pr =>
              obtain ⟨sub, lo⟩ := pr
              rw [hsub] at h
              have hsubinv := ih _ _ _ hsub (by simp)
              refine ih _ _ _ h ⟨?_, ?_⟩
              · cases lo with
                | none => simp
                | some b => exact hsubinv.2 b rfl
              · intro r hr
                rw [List.mem_append] at hr
                rcases hr with hr | hr
                · split at hr
                  · exact hacc r hr
                  · rw [List.mem_append] at hr
                    rcases hr with hr | hr
                    · exact hacc r hr
                    · rw [List.mem_singleton] at hr
                      rw [hr]
                      exact hbuf
                · exact hsubinv.1 r hr

/-- A successful `concat` produces the sum of the two lengths. -/
theorem concatR_ok_len (text : List Nat) (a b c : StrRange)
    (h : concatR text a b = .ok c) : c.2 = a.2 + b.2 := by
  unfold concatR at h
  split at h
  · injection h with h2
    rw [← h2]
  · exact Except.noConfusion h

/-- `&r[..=ov]` has length `ov + 1`. -/
theorem rangePrefixIncl_ok_len (text : List Nat) (r r2 : StrRange) (ov : Nat)
    (h : rangePrefixIncl text r ov = .ok r2) : r2.2 = ov + 1 := by
  unfold rangePrefixIncl at h
  split at h
  · injection h with h2
    rw [← h2]
  · exact Except.noConfusion h

/-- `&r[..ov]` has length `ov`. -/
theorem rangePrefix_ok_len (text : List Nat) (r r2 : StrRange) (ov : Nat)
    (h : rangePrefix text r ov = .ok r2) : r2.2 = ov := by
  unfold rangePrefix at h
  split at h
  · injection h with h2
    rw [← h2]
  · exact Except.noConfusion h

/-- `&r[ov..]` has length `r.len - ov`. -/
theorem rangeSuffixFrom_ok_len (text : List Nat) (r r2 : StrRange) (ov : Nat)
    (h : rangeSuffixFrom text r ov = .ok r2) : r2.2 = r.2 - ov := by
  unfold rangeSuffixFrom at h
  split at h
  · injection h with h2
    rw [← h2]
  · exact Except.noConfusion h

/-- Stitching splits of length at most `size` yields chunks of length at
most `2*size + ov + 1`: the previous-split part contributes at most `size`
bytes, the current split at most `size`, and the next-split part at most
`ov` bytes (`ov + 1` in the first-chunk branch). -/
theorem stitchGo_bound (text : List Nat) (ov size : Nat) :
    ∀ (splits : List StrRange) (prev : Option StrRange) (out : List StrRange),
      stitchGo text ov prev splits = .ok out →
      (∀ r ∈ splits, r.2 ≤ size) →
      (∀ p, prev = some p → p.2 ≤ size) →
      ∀ r ∈ out, r.2 ≤ 2 * size + ov + 1 := by
  intro splits
  induction splits with
  | nil =>
    intro prev out h hsp hprev r hr
    cases prev with
    | none =>
      simp only [stitchGo] at h
      injection h with h2
      rw [← h2] at hr
      exact absurd hr (by simp)
    | some p =>
      simp only [stitchGo] at h
      injection h with h2
      rw [← h2] at hr
      exact absurd hr (by simp)
  | cons cur rest ih =>
    intro prev out h hsp hprev r hr
    have hcur : cur.2 ≤ size := hsp cur (by simp)
    cases rest with
    | nil =>
      cases prev with
      | none =>
        simp only [stitchGo] at h
        injection h with h2
        rw [← h2] at hr
        rw [List.mem_singleton] at hr
        rw [hr]
        omega
      | some p =>
        have hp : p.2 ≤ size := hprev p rfl
        simp only [stitchGo] at h
        have hppart : ∀ pp, (if p.2 ≤ ov then Except.ok p else rangeSuffixFrom text p ov) =
            .ok pp → pp.2 ≤ size := by
          intro pp hpp
          split at hpp
          · injection hpp with h2
            rw [← h2]
            exact hp
          · have := rangeSuffixFrom_ok_len text p pp ov hpp
            omega
        cases hpp : (if p.2 ≤ ov then Except.ok p else rangeSuffixFrom text p ov) with
        | error e => rw [hpp] at h; exact Except.noConfusion h
        | ok pp =>
          rw [hpp] at h
          replace h : (match concatR text pp cur with
              | Except.error e => (Except.error e : Except ChunkErr (List StrRange))
              | Except.ok c => Except.ok [c]) = Except.ok out := h
          cases hc : concatR text pp cur with
          | error e => rw [hc] at h; exact Except.noConfusion h
          | ok c =>
            rw [hc] at h
            injection h with h2
            rw [← h2] at hr
            rw [List.mem_singleton] at hr
            rw [hr]
            have hl1 := concatR_ok_len text pp cur c hc
            have hl2 := hppart pp hpp
            omega
    | cons next rest2 =>
      have hnext : next.2 ≤ size := hsp next (by simp)
      have htail : ∀ out2, stitchGo text ov (some cur) (next :: rest2) = .ok out2 →
          ∀ q ∈ out2, q.2 ≤ 2 * size + ov + 1 := by
        intro out2 hrest
        exact ih (some cur) out2 hrest (fun q hq => hsp q (by simp [hq]))
          (fun q hq => by
            injection hq with hq2
            rw [← hq2]
            exact hcur)
      cases prev with
      | none =>
        simp only [stitchGo] at h
        have hnpart : ∀ nn, (if next.2 ≤ ov then Except.ok next else
            rangePrefixIncl text next ov) = .ok nn → nn.2 ≤ ov + 1 := by
          intro nn hnn
          split at hnn
          · rename_i hle
            injection hnn with h2
            rw [← h2]
            omega
          · have := rangePrefixIncl_ok_len text next nn ov hnn
            omega
        cases hnn : (if next.2 ≤ ov then Except.ok next else rangePrefixIncl text next ov) with
        | error e => rw [hnn] at h; exact Except.noConfusion h
        | ok nn =>
          rw [hnn] at h
          replace h : (match concatR text cur nn with
              | Except.error e => (Except.error e : Except ChunkErr (List StrRange))
              | Except.ok c =>
                match stitchGo text ov (some cur) (next :: rest2) with
                | Except.error e => Except.error e
                | Except.ok out2 => Except.ok (c :: out2)) = Except.ok out := h
          cases hc : concatR text cur nn with
          | error e => rw [hc] at h; exact Except.noConfusion h
          | ok c =>
            rw [hc] at h
            cases hrest : stitchGo text ov (some cur) (next :: rest2) with
            | error e => rw [hrest] at h; exact Except.noConfusion h
            | ok out2 =>
              rw [hrest] at h
              injection h with h2
              rw [← h2] at hr
              rcases List.mem_cons.mp hr with hr | hr
              · rw [hr]
                have hl1 := concatR_ok_len text cur nn c hc
                have hl2 := hnpart nn hnn
                omega
              · exact htail out2 hrest r hr
      | some p =>
        have hp : p.2 ≤ size := hprev p rfl
        simp only [stitchGo] at h
        have hppart : ∀ pp, (if p.2 ≤ ov then Except.ok p else rangeSuffixFrom text p ov) =
            .ok pp → pp.2 ≤ size := by
          intro pp hpp
          split at hpp
          · injection hpp with h2
            rw [← h2]
            exact hp
          · have := rangeSuffixFrom_ok_len text p pp ov hpp
            omega
        have hnpart : ∀ nn, (if next.2 ≤ ov then Except.ok next else
            rangePrefix text next ov) = .ok nn → nn.2 ≤ ov := by
          intro nn hnn
          split at hnn
          · rename_i hle
            injection hnn with h2
            rw [← h2]
            exact hle
          · have := rangePrefix_ok_len text next nn ov hnn
            omega
        cases hpp : (if p.2 ≤ ov then Except.ok p else rangeSuffixFrom text p ov) with
        | error e => rw [hpp] at h; exact Except.noConfusion h
        | ok pp =>
          rw [hpp] at h
          cases hnn : (if next.2 ≤ ov then Except.ok next else rangePrefix text next ov) with
          | error e => rw [hnn] at h; exact Except.noConfusion h
          | ok nn =>
            rw [hnn] at h
            replace h : (match concatR text pp cur with
                | Except.error e => (Except.error e : Except ChunkErr (List StrRange))
                | Except.ok c1 =>
                  match concatR text c1 nn with
                  | Except.error e => Except.error e
                  | Except.ok c =>
                    match stitchGo text ov (some cur) (next :: rest2) with
                    | Except.error e => Except.error e
                    | Except.ok out2 => Except.ok (c :: out2)) = Except.ok out := h
            cases hc1 : concatR text pp cur with
            | error e => rw [hc1] at h; exact Except.noConfusion h
            | ok c1 =>
              rw [hc1] at h
              replace h : (match concatR text c1 nn with
                  | Except.error e => (Except.error e : Except ChunkErr (List StrRange))
                  | Except.ok c =>
                    match stitchGo text ov (some cur) (next :: rest2) with
                    | Except.error e => Except.error e
                    | Except.ok out2 => Except.ok (c :: out2)) = Except.ok out := h
              cases hc : concatR text c1 nn with
              | error e => rw [hc] at h; exact Except.noConfusion h
              | ok c =>
                rw [hc] at h
                cases hrest : stitchGo text ov (some cur) (next :: rest2) with
                | error e => rw [hrest] at h; exact Except.noConfusion h
                | ok out2 =>
                  rw [hrest] at h
                  injection h with h2
                  rw [← h2] at hr
                  rcases List.mem_cons.mp hr with hr | hr
                  · rw [hr]
                    have hl1 := concatR_ok_len text pp cur c1 hc1
                    have hl2 := concatR_ok_len text c1 nn c hc
                    have hl3 := hppart pp hpp
                    have hl4 := hnpart nn hnn
                    omega
                  · exact htail out2 hrest r hr

/-- Content of a range is no longer than the range's length field. -/
theorem sliceOfR_len_le (text : List Nat) (r : StrRange) :
    (sliceOfR text r).length ≤ r.2 := by
  unfold sliceOfR
  simp only [List.length_drop, List.length_take]
  omega

/-- C2 (amended): every chunk a successful `Recursive::chunk` run returns
has length at most `2*size + overlap + 1` (the previous-split borrow can be
as long as `prev.len - overlap ≤ size` bytes because the code slices
`&prev[overlap..]`, and the first chunk borrows `overlap + 1` leading bytes
of its successor via `&next[..=overlap]`). -/
theorem recursive_chunk_length_bound (size ov : Nat) (delims : List (List Nat))
    (input : List Nat) (out : List (List Nat))
    (h : recursiveChunk size ov delims input = .ok out) :
    ∀ c ∈ out, c.length ≤ 2 * size + ov + 1 := by
  unfold recursiveChunk at h
  have main : ∀ (splits2 : List StrRange), (∀ r ∈ splits2, r.2 ≤ size) →
      ∀ out2, (match stitchGo input ov none splits2 with
        | Except.error e => (Except.error e : Except ChunkErr (List (List Nat)))
        | Except.ok stitched => Except.ok ((stitched.map (sliceOfR input)).filter
            (fun c => !(trimAscii c).isEmpty))) = Except.ok out2 →
      ∀ c ∈ out2, c.length ≤ 2 * size + ov + 1 := by
    intro splits2 hsp2 out2 h2
    cases hst : stitchGo input ov none splits2 with
    | error e => rw [hst] at h2; exact Except.noConfusion h2
    | ok stitched =>
      rw [hst] at h2
      injection h2 with h3
      intro c hc
      rw [← h3] at hc
      have hc2 := List.mem_of_mem_filter hc
      rw [List.mem_map] at hc2
      obtain ⟨r, hrmem, hrc⟩ := hc2
      have hrlen := stitchGo_bound input ov size splits2 none stitched hst hsp2
        (by intro p hp; exact Option.noConfusion hp) r hrmem
      rw [← hrc]
      calc (sliceOfR input r).length ≤ r.2 := sliceOfR_len_le input r
        _ ≤ 2 * size + ov + 1 := hrlen
  cases hrec : recRun size delims input (recFuel delims input)
      (.level 0 (0, input.length) (0, 0)) with
  | error e => rw [hrec] at h; exact Except.noConfusion h
  | ok pr =>
    obtain ⟨splits, leftover⟩ := pr
    rw [hrec] at h
    have hbound := recRun_split_bound size delims input _ _ _ _ hrec (by simp)
    cases leftover with
    | none =>
      exact main (splits ++ []) (by
        intro r hr
        rw [List.mem_append] at hr
        rcases hr with hr | hr
        · exact hbound.1 r hr
        · exact absurd hr (by simp)) out h
    | some b =>
      exact main (splits ++ [b]) (by
        intro r hr
        rw [List.mem_append] at hr
        rcases hr with hr | hr
        · exact hbound.1 r hr
        · rw [List.mem_singleton] at hr
          rw [hr]
          exact hbound.2 b rfl) out h

/-- C2 witness: the amended bound instantiated on the counterexample run
(size 2, overlap 0, chunk "a b" of length 3 ≤ 2*2 + 0 + 1). -/
theorem recursive_chunk_length_bound_witness :
    (asciiBytes "a b").length ≤ 2 * 2 + 0 + 1 :=
  recursive_chunk_length_bound 2 0 [[32]] (asciiBytes "a b c")
    [asciiBytes "a b", asciiBytes "a b ", asciiBytes "b c"] (by decide)
    (asciiBytes "a b") (by decide)

/-- Successful slices have the expected take/drop value. -/
theorem sliceChecked_ok_val (text : List Nat) (a b : Nat) (c : List Nat)
    (h : sliceChecked text a b = .ok c) : c = (List.take b text).drop a := by
  unfold sliceChecked at h
  split at h
  · injection h with h2
    exact h2.symm
  · exact Except.noConfusion h

/-- Glueing a dropped prefix-slice back onto the matching dropped suffix. -/
theorem drop_take_append_drop (text : List Nat) (a b : Nat) (hab : a ≤ b) :
    (List.take b text).drop a ++ text.drop b = text.drop a := by
  rcases Nat.le_total a (List.take b text).length with hle | hgt
  · conv_rhs => rw [← List.take_append_drop b text]
    rw [List.drop_append_of_le_length hle]
  · rw [List.length_take] at hgt
    rcases Nat.le_total text.length b with hlb | hbl
    · have hlen : text.length ≤ a := by omega
      rw [List.drop_eq_nil_of_le hlen, List.drop_eq_nil_of_le (by omega : text.length ≤ b),
        List.drop_eq_nil_of_le (by rw [List.length_take]; omega), List.append_nil]
    · have hae : a = b := by omega
      subst hae
      rw [List.drop_eq_nil_of_le (by rw [List.length_take]; omega), List.nil_append]

/-- Core reconstruction for the tail of the sliding-window loop: from any
state `start ≥ size` with `en = start + size`, the emitted chunks with
their leading overlap (and, for non-final chunks, trailing overlap)
removed concatenate to the rest of the text from `start` on. -/
theorem swChunkLoop_cores (size ov : Nat) (text : List Nat) (hov : ov < size) :
    ∀ fuel start chunks,
      size ≤ start →
      swChunkLoop size ov text.length text fuel start (start + size) = .ok chunks →
      chunks ≠ [] ∧ coresJoin ov chunks = text.drop start := by
  intro fuel
  induction fuel with
  | zero =>
    intro start chunks hstart h
    exact absurd h (by simp [swChunkLoop])
  | succ n ih =>
    intro start chunks hstart h
    rw [swChunkLoop_succ] at h
    simp only [] at h
    rw [if_neg (by omega : ¬ start = 0)] at h
    split at h
    · rename_i hfin
      cases hs : sliceChecked text (start - ov) text.length with
      | error e => rw [hs] at h; exact Except.noConfusion h
      | ok c =>
        rw [hs] at h
        injection h with h2
        have hc := sliceChecked_ok_val text (start - ov) text.length c hs
        rw [List.take_length] at hc
        refine ⟨by rw [← h2]; simp, ?_⟩
        rw [← h2]
        show coresJoin ov [c] = text.drop start
        simp only [coresJoin]
        rw [hc, List.drop_drop]
        congr 1
        omega
    · rename_i hfin
      cases hs : sliceChecked text (start - ov) (start + size + ov) with
      | error e => rw [hs] at h; exact Except.noConfusion h
      | ok c =>
        rw [hs] at h
        cases hrest : swChunkLoop size ov text.length text n (start + size)
            (start + size + size) with
        | error e => rw [hrest] at h; exact Except.noConfusion h
        | ok rest =>
          rw [hrest] at h
          injection h with h2
          obtain ⟨hrne, hrcores⟩ := ih (start + size) rest (by omega) hrest
          have hc := sliceChecked_ok_val text (start - ov) (start + size + ov) c hs
          have hb : start + size + ov ≤ text.length := by omega
          have hclen : c.length = size + ov + ov := by
            rw [hc, List.length_drop, List.length_take, Nat.min_eq_left hb]
            omega
          refine ⟨by rw [← h2]; simp, ?_⟩
          rw [← h2]
          cases rest with
          | nil => exact absurd rfl hrne
          | cons r rs =>
            show ((c.drop ov).take (c.length - ov - ov)) ++ coresJoin ov (r :: rs) =
              text.drop start
            rw [hrcores, hclen, hc, List.drop_drop,
              show start - ov + ov = start by omega,
              show size + ov + ov - ov - ov = size by omega]
            rw [List.take_drop, List.take_take,
              show min (start + size) (start + size + ov) = start + size by omega]
            exact drop_take_append_drop text start (start + size) (by omega)

/-- C5: concatenating, in order, the non-overlapping cores of the chunks
a successful SlidingWindow run returns (dropping the leading `overlap`
bytes of every chunk but the first and the trailing `overlap` bytes of
every chunk but the last) reconstructs the trimmed input exactly. -/
theorem sw_cores_reconstruct (size ov : Nat) (input : List Nat) (chunks : List (List Nat))
    (hov : ov < size) (h : swChunk size ov input = .ok chunks) :
    coresJoinAll ov chunks = trimAscii input := by
  simp only [swChunk] at h
  by_cases ht0 : trimAscii input = []
  · rw [if_pos ht0] at h
    injection h with h2
    rw [← h2, ht0]
    rfl
  · rw [if_neg ht0] at h
    by_cases ht1 : (trimAscii input).length ≤ size + ov
    · rw [if_pos ht1] at h
      injection h with h2
      rw [← h2]
      rfl
    · rw [if_neg ht1] at h
      rw [show (trimAscii input).length + 2 = ((trimAscii input).length + 1) + 1 from rfl,
        swChunkLoop_succ] at h
      simp only [] at h
      rw [if_pos True.intro] at h
      rw [if_neg (by omega : ¬ (trimAscii input).length < size + ov)] at h
      cases hs : sliceChecked (trimAscii input) 0 (size + ov) with
      | error e => rw [hs] at h; exact Except.noConfusion h
      | ok c0 =>
        rw [hs] at h
        cases hrest : swChunkLoop size ov (trimAscii input).length (trimAscii input)
            ((trimAscii input).length + 1) size (size + size) with
        | error e => rw [hrest] at h; exact Except.noConfusion h
        | ok rest =>
          rw [hrest] at h
          injection h with h2
          obtain ⟨hrne, hrcores⟩ :=
            swChunkLoop_cores size ov (trimAscii input) hov
              ((trimAscii input).length + 1) size rest (by omega) hrest
          have hc := sliceChecked_ok_val (trimAscii input) 0 (size + ov) c0 hs
          rw [List.drop_zero] at hc
          have hclen : c0.length = size + ov := by
            rw [hc]
            simp only [List.length_take]
            omega
          rw [← h2]
          cases rest with
          | nil => exact absurd rfl hrne
          | cons r rs =>
            show (c0.take (c0.length - ov)) ++ coresJoin ov (r :: rs) = trimAscii input
            rw [hrcores, hclen, hc,
              show size + ov - ov = size by omega,
              List.take_take, show min size (size + ov) = size by omega]
            exact List.take_append_drop size (trimAscii input)

/-- C5 witness: a concrete successful run reassembled (size 30, overlap
20, the 141-letter input; cores [0,30), [30,60), [60,90), [90,120),
[120,141) rebuild the text). -/
theorem sw_cores_reconstruct_witness :
    coresJoinAll 20 [(List.take 50 (List.replicate 141 97)).drop 0,
      (List.take 80 (List.replicate 141 97)).drop 10,
      (List.take 110 (List.replicate 141 97)).drop 40,
      (List.take 140 (List.replicate 141 97)).drop 70,
      (List.take 141 (List.replicate 141 97)).drop 100] =
    trimAscii (List.replicate 141 97) :=
  sw_cores_reconstruct 30 20 (List.replicate 141 97)
    [(List.take 50 (List.replicate 141 97)).drop 0,
     (List.take 80 (List.replicate 141 97)).drop 10,
     (List.take 110 (List.replicate 141 97)).drop 40,
     (List.take 140 (List.replicate 141 97)).drop 70,
     (List.take 141 (List.replicate 141 97)).drop 100] (by decide) (by decide)
